import Mathlib

/-!
Verification of `delog.py`, an ANSI cursor-position filter.

The script compiles the regular expression `\x1b\[[0-9]*;[0-9]*H` and, for
every line read from standard input, prints `regex.sub('', line).strip()`.
The development below embeds the substitution, the trim, and the main loop
as executable Lean functions over `List Char`, together with spec-level
descriptions of the pattern, and proves or refutes the documented
properties of the filter.
-/

namespace Delog

/-- The ASCII escape character `0x1B` that begins the cursor-positioning
pattern compiled in `delog.py`. -/
def escChar : Char := Char.ofNat 27

/-- Skip the maximal run of decimal digits at the head of the list. This is
exactly what the greedy `[0-9]*` of the compiled pattern consumes: in the
pattern each `[0-9]*` is followed by a literal (`;` or `H`) that is not a
digit, so backtracking can never make a shorter digit run succeed, and the
match of `[0-9]*` is precisely the maximal run. -/
def skipDigits : List Char → List Char
  | [] => []
  | c :: cs => if c.isDigit then skipDigits cs else c :: cs

/-- Require the literal character `x` at the head of the list and return
the remainder. In the compiled pattern the literals `;` and `H` each follow
a `[0-9]*`, so this is applied to the list left by `skipDigits`. -/
def expect (x : Char) : List Char → Option (List Char)
  | [] => none
  | c :: r => if c = x then some r else none

/-- Attempt to match the compiled pattern `\x1b\[[0-9]*;[0-9]*H` of
`delog.py` at the head of the character list; on success return the
characters that follow the match. -/
def matchAt : List Char → Option (List Char)
  | e :: b :: rest =>
    if e = escChar ∧ b = '[' then
      (expect ';' (skipDigits rest)).bind fun r2 => expect 'H' (skipDigits r2)
    else none
  | _ => none

/-- Fuel-indexed worker for the substitution `regex.sub('', line)`: scan
left to right; at each position delete the match starting there if one
exists and resume after it, otherwise keep the character and advance. The
fuel only provides structural recursion; `l.length` steps always suffice
because every step consumes at least one character. -/
def subFuel : Nat → List Char → List Char
  | 0, l => l
  | _ + 1, [] => []
  | n + 1, c :: cs =>
    match matchAt (c :: cs) with
    | some r => subFuel n r
    | none => c :: subFuel n cs

/-- The substitution `regex.sub('', line)` from `delog.py`: every leftmost
non-overlapping match of the pattern is deleted from the line. -/
def sub (l : List Char) : List Char := subFuel l.length l

/-- Whitespace as recognised by CPython's `str.strip()` with no argument
(`Py_UNICODE_ISSPACE`): `0x09`–`0x0D`, the separators `0x1C`–`0x1F`,
space, NEL `0x85`, NBSP `0xA0`, Ogham space `0x1680`, the Unicode spaces
`0x2000`–`0x200A`, line and paragraph separators `0x2028`/`0x2029`,
`0x202F`, `0x205F`, and ideographic space `0x3000`. -/
def pyIsSpace (c : Char) : Bool :=
  (9 ≤ c.val ∧ c.val ≤ 13) ∨ (28 ≤ c.val ∧ c.val ≤ 32) ∨
    c.val = 133 ∨ c.val = 160 ∨ c.val = 0x1680 ∨
    (0x2000 ≤ c.val ∧ c.val ≤ 0x200A) ∨
    c.val = 0x2028 ∨ c.val = 0x2029 ∨ c.val = 0x202F ∨
    c.val = 0x205F ∨ c.val = 0x3000

/-- The Python `str.strip()` call of `delog.py`: remove all leading and all
trailing whitespace characters from the line. -/
def strip (l : List Char) : List Char :=
  ((l.dropWhile pyIsSpace).reverse.dropWhile pyIsSpace).reverse

/-- The loop body of `delog.py` before printing:
`regex.sub('', line).strip()`. -/
def cleanLine (l : List Char) : List Char := strip (sub l)

/-- The `for line in sys.stdin` loop of `delog.py`, seen as the list of
cleaned lines it prints, in input order. -/
def delogRun : List (List Char) → List (List Char)
  | [] => []
  | line :: rest => cleanLine line :: delogRun rest

/-- The character stream the loop writes to standard output: each cleaned
line followed by the single newline that `print` appends. -/
def delogOutput : List (List Char) → List Char
  | [] => []
  | line :: rest => cleanLine line ++ '\n' :: delogOutput rest

/-- Exit status of `delog.py`: the script's only control path runs the loop
to end of stream and falls off the end of the file, so the interpreter
exits with status 0 for every (fault-free) input stream. -/
def delogExitCode (_ : List (List Char)) : Nat := 0

/-- Spec wording for the pattern: an escape character followed immediately
by `[`, zero or more decimal digits, a `;`, zero or more decimal digits,
and a literal `H`. -/
def IsPat (p : List Char) : Prop :=
  ∃ d1 d2 : List Char,
    (∀ c ∈ d1, c.isDigit = true) ∧ (∀ c ∈ d2, c.isDigit = true) ∧
      p = escChar :: '[' :: (d1 ++ ';' :: (d2 ++ ['H']))

/-- A pattern occurrence starts at the head of the list. -/
def StartsWithPat (l : List Char) : Prop := ∃ p r, IsPat p ∧ l = p ++ r

/-- The list contains a pattern occurrence somewhere. -/
def ContainsPat (l : List Char) : Prop :=
  ∃ pre p post, IsPat p ∧ l = pre ++ (p ++ post)

/-- Executable occurrence check: a match attempt at every suffix. -/
def hasPatB : List Char → Bool
  | [] => false
  | c :: cs => (matchAt (c :: cs)).isSome || hasPatB cs

/-- Modelled from the spec's description of the substitution: all
non-overlapping occurrences of the pattern are removed, scanning left to
right — a character at which no occurrence starts is kept verbatim, and an
occurrence starting at the current position is deleted whole, resuming
after it. -/
inductive SubSpec : List Char → List Char → Prop
  | nil : SubSpec [] []
  | keep {c : Char} {cs out : List Char} : ¬ StartsWithPat (c :: cs) →
      SubSpec cs out → SubSpec (c :: cs) (c :: out)
  | drop {p rest out : List Char} : IsPat p → SubSpec rest out →
      SubSpec (p ++ rest) out

/-- The whitespace set named by the spec's trimming sentence: space, tab,
newline and carriage return only. -/
def claimedWS (c : Char) : Bool := c = ' ' ∨ c = '\t' ∨ c = '\n' ∨ c = '\r'

/-- Trimming with the spec's claimed whitespace set, for comparison with
the implementation's `strip`. -/
def claimedStrip (l : List Char) : List Char :=
  ((l.dropWhile claimedWS).reverse.dropWhile claimedWS).reverse

/-- The spec's concrete scenario input line
`"\x1b[12;5HHello World\x1b[0;0H  "`. -/
def scenarioLine : List Char :=
  [escChar, '[', '1', '2', ';', '5', 'H',
   'H', 'e', 'l', 'l', 'o', ' ', 'W', 'o', 'r', 'l', 'd',
   escChar, '[', '0', ';', '0', 'H', ' ', ' ']

/-- The line `"\x1b[1;\x1b[;H2H"`: deleting its only pattern occurrence
`"\x1b[;H"` splices the surrounding text into the new occurrence
`"\x1b[1;2H"`, which a single substitution pass does not revisit. -/
def badLine : List Char :=
  [escChar, '[', '1', ';', escChar, '[', ';', 'H', '2', 'H']

/-- The spec's concrete no-escape scenario line `"  plain text  "`. -/
def plainLine : List Char :=
  [' ', ' ', 'p', 'l', 'a', 'i', 'n', ' ', 't', 'e', 'x', 't', ' ', ' ']

/-- The form feed character `0x0C`. -/
def formFeed : Char := Char.ofNat 12

/-! ### Basic facts about `skipDigits` and `matchAt` -/

theorem skipDigits_decomp (l : List Char) :
    ∃ d, (∀ c ∈ d, c.isDigit = true) ∧ l = d ++ skipDigits l := by
  induction l with
  | nil => exact ⟨[], by simp, by simp [skipDigits]⟩
  | cons c cs ih =>
    by_cases hc : c.isDigit
    · obtain ⟨d, hd, he⟩ := ih
      refine ⟨c :: d, ?_, ?_⟩
      · intro x hx
        rcases List.mem_cons.mp hx with rfl | hx
        · exact hc
        · exact hd x hx
      · simp only [skipDigits, hc, if_true, List.cons_append]
        exact congrArg (c :: ·) he
    · exact ⟨[], by simp, by simp [skipDigits, hc]⟩

theorem skipDigits_append {d : List Char} (hd : ∀ c ∈ d, c.isDigit = true)
    {c : Char} (hc : c.isDigit = false) (t : List Char) :
    skipDigits (d ++ c :: t) = c :: t := by
  induction d with
  | nil => simp [skipDigits, hc]
  | cons a d ih =>
    have ha : a.isDigit = true := hd a (List.mem_cons_self a d)
    simp only [List.cons_append, skipDigits, ha, if_true]
    exact ih fun x hx => hd x (List.mem_cons_of_mem a hx)

theorem expect_eq_some {x : Char} {l r : List Char} :
    expect x l = some r ↔ l = x :: r := by
  cases l with
  | nil => simp [expect]
  | cons c cs =>
    by_cases hc : c = x
    · subst hc
      simp [expect]
    · simp [expect, hc, Ne.symm hc]

theorem matchAt_sound {l r : List Char} (h : matchAt l = some r) :
    ∃ p, IsPat p ∧ l = p ++ r := by
  match l with
  | [] => simp [matchAt] at h
  | [c] => simp [matchAt] at h
  | e :: b :: rest =>
    by_cases heb : e = escChar ∧ b = '['
    case neg => simp [matchAt, heb] at h
    case pos =>
      obtain ⟨rfl, rfl⟩ := heb
      simp only [matchAt, and_self, eq_self_iff_true, if_true] at h
      rw [Option.bind_eq_some] at h
      obtain ⟨r2, h1, h2⟩ := h
      rw [expect_eq_some] at h1 h2
      obtain ⟨d1, hd1, hrest⟩ := skipDigits_decomp rest
      rw [h1] at hrest
      obtain ⟨d2, hd2, hr2⟩ := skipDigits_decomp r2
      rw [h2] at hr2
      refine ⟨escChar :: '[' :: (d1 ++ ';' :: (d2 ++ ['H'])), ⟨d1, d2, hd1, hd2, rfl⟩, ?_⟩
      rw [hrest, hr2]
      simp

theorem matchAt_complete {p : List Char} (hp : IsPat p) (r : List Char) :
    matchAt (p ++ r) = some r := by
  obtain ⟨d1, d2, hd1, hd2, rfl⟩ := hp
  have hsemi : (';' : Char).isDigit = false := by decide
  have hH : ('H' : Char).isDigit = false := by decide
  have e1 : skipDigits (d1 ++ ';' :: (d2 ++ 'H' :: r)) = ';' :: (d2 ++ 'H' :: r) :=
    skipDigits_append hd1 hsemi _
  have e2 : skipDigits (d2 ++ 'H' :: r) = 'H' :: r := skipDigits_append hd2 hH _
  have : (escChar :: '[' :: (d1 ++ ';' :: (d2 ++ ['H']))) ++ r =
      escChar :: '[' :: (d1 ++ ';' :: (d2 ++ 'H' :: r)) := by simp
  rw [this]
  simp [matchAt, e1, e2, expect]

theorem IsPat_cons {p : List Char} (hp : IsPat p) :
    ∃ t, p = escChar :: t := by
  obtain ⟨d1, d2, _, _, rfl⟩ := hp
  exact ⟨_, rfl⟩

theorem matchAt_some_length {l r : List Char} (h : matchAt l = some r) :
    r.length < l.length := by
  obtain ⟨p, hp, rfl⟩ := matchAt_sound h
  obtain ⟨t, rfl⟩ := IsPat_cons hp
  simp [List.length_append]
  omega

theorem matchAt_none_of_not_starts {l : List Char} (h : ¬ StartsWithPat l) :
    matchAt l = none := by
  cases hm : matchAt l with
  | none => rfl
  | some r =>
    obtain ⟨p, hp, he⟩ := matchAt_sound hm
    exact absurd ⟨p, r, hp, he⟩ h

theorem starts_of_matchAt_some {l r : List Char} (h : matchAt l = some r) :
    StartsWithPat l := by
  obtain ⟨p, hp, he⟩ := matchAt_sound h
  exact ⟨p, r, hp, he⟩

theorem not_starts_of_matchAt_none {l : List Char} (h : matchAt l = none) :
    ¬ StartsWithPat l := by
  intro hsp
  obtain ⟨p, r, hp, he⟩ := hsp
  rw [he, matchAt_complete hp] at h
  exact Option.noConfusion h

/-! ### Unfolding equations for `sub` -/

theorem subFuel_nil (n : Nat) : subFuel n [] = [] := by
  cases n <;> rfl

theorem subFuel_congr : ∀ (m n : Nat) (l : List Char), l.length ≤ m → l.length ≤ n →
    subFuel m l = subFuel n l := by
  intro m
  induction m with
  | zero =>
    intro n l hm _
    have : l = [] := List.length_eq_zero.mp (Nat.le_zero.mp hm)
    subst this
    rw [subFuel_nil, subFuel_nil]
  | succ m ih =>
    intro n l hm hn
    cases l with
    | nil => rw [subFuel_nil, subFuel_nil]
    | cons c cs =>
      cases n with
      | zero => exact absurd hn (by simp)
      | succ n =>
        simp only [subFuel]
        cases hmm : matchAt (c :: cs) with
        | some r =>
          have hr : r.length < cs.length + 1 := by
            simpa using matchAt_some_length hmm
          have hlm : cs.length + 1 ≤ m + 1 := by simpa using hm
          have hln : cs.length + 1 ≤ n + 1 := by simpa using hn
          exact ih n r (by omega) (by omega)
        | none =>
          have hlm : cs.length + 1 ≤ m + 1 := by simpa using hm
          have hln : cs.length + 1 ≤ n + 1 := by simpa using hn
          exact congrArg (c :: ·) (ih n cs (by omega) (by omega))

theorem sub_nil : sub [] = [] := rfl

theorem sub_cons_match {c : Char} {cs r : List Char} (h : matchAt (c :: cs) = some r) :
    sub (c :: cs) = sub r := by
  have hr : r.length < cs.length + 1 := by simpa using matchAt_some_length h
  show subFuel (c :: cs).length (c :: cs) = sub r
  simp only [List.length_cons, subFuel, h]
  exact subFuel_congr cs.length r.length r (by omega) (Nat.le_refl _)

theorem sub_cons_nomatch {c : Char} {cs : List Char} (h : matchAt (c :: cs) = none) :
    sub (c :: cs) = c :: sub cs := by
  show subFuel (c :: cs).length (c :: cs) = c :: sub cs
  simp only [List.length_cons, subFuel, h]
  rfl

theorem sub_match {l r : List Char} (h : matchAt l = some r) : sub l = sub r := by
  cases l with
  | nil => simp [matchAt] at h
  | cons c cs => exact sub_cons_match h

/-! ### The substitution realises the spec's removal relation, and is the
only function that does -/

theorem subSpec_sub_aux : ∀ (n : Nat) (l : List Char), l.length ≤ n → SubSpec l (sub l) := by
  intro n
  induction n with
  | zero =>
    intro l hl
    have : l = [] := List.length_eq_zero.mp (Nat.le_zero.mp hl)
    subst this
    exact SubSpec.nil
  | succ n ih =>
    intro l hl
    match l with
    | [] => exact SubSpec.nil
    | c :: cs =>
      cases hm : matchAt (c :: cs) with
      | some r =>
        obtain ⟨p, hp, he⟩ := matchAt_sound hm
        rw [sub_cons_match hm, he]
        have hr : r.length < (c :: cs).length := matchAt_some_length hm
        have hln : (c :: cs).length ≤ n + 1 := hl
        exact SubSpec.drop hp (ih r (by omega))
      | none =>
        rw [sub_cons_nomatch hm]
        have hns : ¬ StartsWithPat (c :: cs) := by
          intro hsp
          obtain ⟨p, r, hp, he⟩ := hsp
          rw [he, matchAt_complete hp] at hm
          exact Option.noConfusion hm
        have hln : cs.length + 1 ≤ n + 1 := by simpa using hl
        exact SubSpec.keep hns (ih cs (by omega))

theorem subSpec_eq_sub {l out : List Char} (h : SubSpec l out) : out = sub l := by
  induction h with
  | nil => rfl
  | @keep c cs out hns _ ih =>
    have hm : matchAt (c :: cs) = none := matchAt_none_of_not_starts hns
    rw [sub_cons_nomatch hm, ih]
  | @drop p rest out hp _ ih =>
    rw [sub_match (matchAt_complete hp rest), ih]

/-! ### Lines with no occurrence are left alone by the substitution -/

theorem sub_eq_self {l : List Char} (h : ¬ ContainsPat l) : sub l = l := by
  induction l with
  | nil => rfl
  | cons c cs ih =>
    cases hm : matchAt (c :: cs) with
    | some r =>
      obtain ⟨p, hp, he⟩ := matchAt_sound hm
      exact absurd ⟨[], p, r, hp, by simpa using he⟩ h
    | none =>
      rw [sub_cons_nomatch hm]
      have hcs : ¬ ContainsPat cs := by
        intro hc
        obtain ⟨pre, p, post, hp, he⟩ := hc
        exact h ⟨c :: pre, p, post, hp, by rw [List.cons_append, he]⟩
      rw [ih hcs]

theorem hasPatB_iff (l : List Char) : hasPatB l = true ↔ ContainsPat l := by
  constructor
  · intro h
    induction l with
    | nil => simp [hasPatB] at h
    | cons c cs ih =>
      simp only [hasPatB, Bool.or_eq_true] at h
      rcases h with h | h
      · obtain ⟨r, hr⟩ := Option.isSome_iff_exists.mp h
        obtain ⟨p, hp, he⟩ := matchAt_sound hr
        exact ⟨[], p, r, hp, by simpa using he⟩
      · obtain ⟨pre, p, post, hp, he⟩ := ih h
        exact ⟨c :: pre, p, post, hp, by rw [List.cons_append, he]⟩
  · intro h
    obtain ⟨pre, p, post, hp, he⟩ := h
    subst he
    induction pre with
    | nil =>
      obtain ⟨t, hpt⟩ := IsPat_cons hp
      have hm : matchAt (p ++ post) = some post := matchAt_complete hp post
      rw [hpt] at hm ⊢
      simp only [List.nil_append, List.cons_append, hasPatB, Bool.or_eq_true]
      have hm2 : matchAt (escChar :: List.append t post) = some post := hm
      exact Or.inl (by rw [hm2]; rfl)
    | cons a pre ih =>
      simp only [List.cons_append, hasPatB, Bool.or_eq_true]
      exact Or.inr ih

theorem not_containsPat_of_hasPatB {l : List Char} (h : hasPatB l = false) :
    ¬ ContainsPat l := by
  intro hc
  rw [← hasPatB_iff] at hc
  rw [h] at hc
  exact Bool.noConfusion hc

/-! ### Facts about `strip` -/

theorem dropWhile_head {p : Char → Bool} :
    ∀ {l : List Char} {c : Char}, (l.dropWhile p).head? = some c → p c = false := by
  intro l
  induction l with
  | nil => intro c h; simp [List.dropWhile] at h
  | cons a cs ih =>
    intro c h
    by_cases ha : p a
    · rw [List.dropWhile_cons_of_pos ha] at h
      exact ih h
    · rw [List.dropWhile_cons_of_neg ha] at h
      simp only [List.head?_cons, Option.some.injEq] at h
      subst h
      exact Bool.eq_false_iff.mpr ha

theorem dropWhile_eq_self_of_head {p : Char → Bool} {l : List Char}
    (h : ∀ c, l.head? = some c → p c = false) : l.dropWhile p = l := by
  cases l with
  | nil => rfl
  | cons a cs =>
    have := h a rfl
    rw [List.dropWhile_cons_of_neg (by rw [this]; exact Bool.false_ne_true)]

theorem head?_append_of_some {a b : List Char} {c : Char} (h : a.head? = some c) :
    (a ++ b).head? = some c := by
  cases a with
  | nil => simp at h
  | cons x xs => simpa using h

/-- The middle part of the line that `strip` keeps, rejoined with the
whitespace it removed on either side, gives back the line. -/
theorem strip_decomp (l : List Char) :
    ∃ pre post, l = pre ++ (strip l ++ post) ∧
      (∀ c ∈ pre, pyIsSpace c = true) ∧ (∀ c ∈ post, pyIsSpace c = true) := by
  have h2 := List.takeWhile_append_dropWhile pyIsSpace (l.dropWhile pyIsSpace).reverse
  have hr := congrArg List.reverse h2
  rw [List.reverse_append, List.reverse_reverse] at hr
  have key : strip l ++ ((l.dropWhile pyIsSpace).reverse.takeWhile pyIsSpace).reverse
      = l.dropWhile pyIsSpace := hr
  refine ⟨l.takeWhile pyIsSpace,
    ((l.dropWhile pyIsSpace).reverse.takeWhile pyIsSpace).reverse, ?_, ?_, ?_⟩
  · rw [key]
    exact (List.takeWhile_append_dropWhile pyIsSpace l).symm
  · intro c hc
    exact List.mem_takeWhile_imp hc
  · intro c hc
    exact List.mem_takeWhile_imp (List.mem_reverse.mp hc)

theorem strip_head {l : List Char} {c : Char} (h : (strip l).head? = some c) :
    pyIsSpace c = false := by
  have h2 := List.takeWhile_append_dropWhile pyIsSpace (l.dropWhile pyIsSpace).reverse
  have hr := congrArg List.reverse h2
  rw [List.reverse_append, List.reverse_reverse] at hr
  have key : strip l ++ ((l.dropWhile pyIsSpace).reverse.takeWhile pyIsSpace).reverse
      = l.dropWhile pyIsSpace := hr
  have : (l.dropWhile pyIsSpace).head? = some c := by
    rw [← key]
    exact head?_append_of_some h
  exact dropWhile_head this

theorem strip_last {l : List Char} {c : Char} (h : (strip l).getLast? = some c) :
    pyIsSpace c = false := by
  have : ((l.dropWhile pyIsSpace).reverse.dropWhile pyIsSpace).head? = some c := by
    have := h
    rw [strip, List.getLast?_reverse] at this
    exact this
  exact dropWhile_head this

theorem strip_idem (l : List Char) : strip (strip l) = strip l := by
  have hhead : (strip l).dropWhile pyIsSpace = strip l :=
    dropWhile_eq_self_of_head fun c hc => strip_head hc
  have hrev : (strip l).reverse.dropWhile pyIsSpace = (strip l).reverse := by
    refine dropWhile_eq_self_of_head fun c hc => ?_
    have hgl : (strip l).getLast? = some c := by
      rw [← List.reverse_reverse (strip l), List.getLast?_reverse]
      exact hc
    exact strip_last hgl
  rw [strip, hhead, hrev, List.reverse_reverse]

theorem strip_sublist (l : List Char) : (strip l).Sublist l := by
  have h1 : ((l.dropWhile pyIsSpace).reverse.dropWhile pyIsSpace).Sublist
      (l.dropWhile pyIsSpace).reverse := List.dropWhile_sublist pyIsSpace
  have h2 : (strip l).Sublist (l.dropWhile pyIsSpace) := by
    rw [strip]
    have := h1.reverse
    rwa [List.reverse_reverse] at this
  exact h2.trans (List.dropWhile_sublist pyIsSpace)

theorem subSpec_sublist {a out : List Char} (hs : SubSpec a out) : out.Sublist a := by
  induction hs with
  | nil => exact List.Sublist.refl []
  | keep _ _ ih => exact ih.cons₂ _
  | @drop p rest out _ _ ih => exact ih.trans (List.sublist_append_right p rest)

theorem sub_sublist (l : List Char) : (sub l).Sublist l :=
  subSpec_sublist (subSpec_sub_aux l.length l (Nat.le_refl _))

/-! ### The main loop -/

theorem delogRun_length (input : List (List Char)) :
    (delogRun input).length = input.length := by
  induction input with
  | nil => rfl
  | cons l rest ih => simp [delogRun, ih]

theorem delogRun_getElem (input : List (List Char)) (i : Nat) :
    (delogRun input)[i]? = (input[i]?).map cleanLine := by
  induction input generalizing i with
  | nil => simp [delogRun]
  | cons l rest ih =>
    cases i with
    | zero => simp [delogRun]
    | succ i => simpa [delogRun] using ih i

theorem mem_delogRun {input : List (List Char)} {out : List Char}
    (h : out ∈ delogRun input) : ∃ l, l ∈ input ∧ out = cleanLine l := by
  induction input with
  | nil => simp [delogRun] at h
  | cons a rest ih =>
    simp only [delogRun, List.mem_cons] at h
    rcases h with rfl | h
    · exact ⟨a, List.mem_cons_self a rest, rfl⟩
    · obtain ⟨l, hl, he⟩ := ih h
      exact ⟨l, List.mem_cons_of_mem a hl, he⟩

theorem delogOutput_eq (input : List (List Char)) :
    delogOutput input = ((delogRun input).map (fun l => l ++ ['\n'])).flatten := by
  induction input with
  | nil => rfl
  | cons l rest ih =>
    simp only [delogOutput, delogRun, List.map_cons, List.flatten_cons, ih]
    simp

/-! ## The verified claims -/

/-- C1: for every input line, every non-overlapping occurrence of the
exact pattern escape `[` digits `;` digits `H` is removed before trimming
and no character outside the matched occurrences is altered: the
implementation's substitution satisfies the spec's left-to-right removal
relation `SubSpec`, and every output of that relation is the
substitution's output. -/
theorem sub_realises_spec_removal (l : List Char) :
    SubSpec l (sub l) ∧ ∀ out, SubSpec l out → out = sub l :=
  ⟨subSpec_sub_aux l.length l (Nat.le_refl _), fun _ h => subSpec_eq_sub h⟩

theorem sub_realises_spec_removal_witness : (['a'] : List Char) = sub ['a'] :=
  (sub_realises_spec_removal ['a']).2 ['a']
    (SubSpec.keep (not_starts_of_matchAt_none (by decide)) SubSpec.nil)

/-- C2: for every input line with zero occurrences of the escape pattern,
the emitted line is the input line with whitespace trimmed. -/
theorem cleanLine_eq_strip_of_no_occurrence (l : List Char) (h : ¬ ContainsPat l) :
    cleanLine l = strip l := by
  rw [cleanLine, sub_eq_self h]

theorem cleanLine_eq_strip_of_no_occurrence_witness :
    ¬ ContainsPat plainLine ∧ cleanLine plainLine = strip plainLine :=
  have h : ¬ ContainsPat plainLine := not_containsPat_of_hasPatB (by decide)
  ⟨h, cleanLine_eq_strip_of_no_occurrence plainLine h⟩

/-- C3: exactly one output line per input line, output line `i` is the
cleaned form of input line `i`, and the emitted stream is the cleaned
lines in order, each terminated by a single newline. -/
theorem delog_output_lines_in_order (input : List (List Char)) (i : Nat) :
    (delogRun input).length = input.length ∧
      (delogRun input)[i]? = (input[i]?).map cleanLine ∧
      delogOutput input = ((delogRun input).map (fun l => l ++ ['\n'])).flatten :=
  ⟨delogRun_length input, delogRun_getElem input i, delogOutput_eq input⟩

/-- C4 counterexample: the filter is not idempotent. On
`"\x1b[1;\x1b[;H2H"` the single substitution pass deletes only the
occurrence `"\x1b[;H"`, splicing the remaining text into the fresh
occurrence `"\x1b[1;2H"`, so filtering the output again changes it. -/
theorem cleanLine_not_idempotent_cex :
    cleanLine (cleanLine badLine) ≠ cleanLine badLine := by decide

/-- C4 amended: on every line whose filtered output contains no occurrence
of the pattern (in particular all lines where deleting a match does not
splice surrounding text into a new occurrence), applying the filter to its
own output yields the same string. -/
theorem cleanLine_idempotent_of_output_clean (l : List Char)
    (h : ¬ ContainsPat (cleanLine l)) :
    cleanLine (cleanLine l) = cleanLine l := by
  show strip (sub (cleanLine l)) = cleanLine l
  rw [sub_eq_self h]
  exact strip_idem (sub l)

theorem cleanLine_idempotent_of_output_clean_witness :
    ¬ ContainsPat (cleanLine scenarioLine) ∧
      cleanLine (cleanLine scenarioLine) = cleanLine scenarioLine :=
  have h : ¬ ContainsPat (cleanLine scenarioLine) := not_containsPat_of_hasPatB (by decide)
  ⟨h, cleanLine_idempotent_of_output_clean scenarioLine h⟩

/-- C5 counterexample: trimming is not limited to space, tab, newline and
carriage return. The form feed `0x0C` is outside the claimed whitespace
set, yet `strip` removes it, so the claimed trim and the implemented trim
disagree on the line `"\x0c"`. -/
theorem strip_ne_claimedStrip_cex :
    strip [formFeed] = [] ∧ claimedWS formFeed = false ∧
      claimedStrip [formFeed] = [formFeed] := by decide

/-- C5 amended: the trimming step removes exactly the leading and trailing
whitespace characters, where whitespace is Python's `str.strip` whitespace
set `pyIsSpace` (which beyond space, tab, newline and carriage return also
holds vertical tab, form feed, the separators `0x1C`–`0x1F` and the
Unicode space characters); characters outside this set at the line's ends
are kept. -/
theorem strip_removes_exactly_python_whitespace (l : List Char) :
    (∃ pre post, l = pre ++ (strip l ++ post) ∧
        (∀ c ∈ pre, pyIsSpace c = true) ∧ (∀ c ∈ post, pyIsSpace c = true)) ∧
      (∀ c, (strip l).head? = some c → pyIsSpace c = false) ∧
      (∀ c, (strip l).getLast? = some c → pyIsSpace c = false) :=
  ⟨strip_decomp l, fun _ h => strip_head h, fun _ h => strip_last h⟩

theorem strip_removes_exactly_python_whitespace_witness :
    (strip [' ', 'a']).head? = some 'a' ∧ pyIsSpace 'a' = false :=
  ⟨by decide, (strip_removes_exactly_python_whitespace [' ', 'a']).2.1 'a' (by decide)⟩

/-- C6: per-line determinism and independence — the output line at index
`i` is a function of the input line at index `i` alone: any two input
streams agreeing on line `i` produce the same output line `i`. -/
theorem delog_line_depends_only_on_line (a b : List (List Char)) (i : Nat)
    (h : a[i]? = b[i]?) :
    (delogRun a)[i]? = (delogRun b)[i]? := by
  rw [delogRun_getElem, delogRun_getElem, h]

theorem delog_line_depends_only_on_line_witness :
    (([['a']] : List (List Char))[0]? = ([['a'], ['b']] : List (List Char))[0]?) ∧
      (delogRun [['a']])[0]? = (delogRun [['a'], ['b']])[0]? :=
  ⟨rfl, delog_line_depends_only_on_line [['a']] [['a'], ['b']] 0 rfl⟩

/-- C7: the spec's concrete scenario — on
`"\x1b[12;5HHello World\x1b[0;0H  "` pattern removal yields
`"Hello World  "` and the emitted line is `"Hello World"`. -/
theorem scenario_line_cleaning :
    sub scenarioLine =
        ['H', 'e', 'l', 'l', 'o', ' ', 'W', 'o', 'r', 'l', 'd', ' ', ' '] ∧
      cleanLine scenarioLine =
        ['H', 'e', 'l', 'l', 'o', ' ', 'W', 'o', 'r', 'l', 'd'] := by decide

/-- C8: on empty input the program emits zero lines, writes nothing, and
exits with status 0. -/
theorem empty_input_empty_output :
    delogRun [] = [] ∧ delogOutput [] = [] ∧ delogExitCode [] = 0 :=
  ⟨rfl, rfl, rfl⟩

/-- C9: every emitted output line has no leading or trailing whitespace —
trimming an emitted line is a no-op. -/
theorem emitted_lines_already_stripped (input : List (List Char)) (out : List Char)
    (h : out ∈ delogRun input) : strip out = out := by
  obtain ⟨l, _, rfl⟩ := mem_delogRun h
  exact strip_idem (sub l)

theorem emitted_lines_already_stripped_witness :
    (['a'] : List Char) ∈ delogRun [[' ', 'a']] ∧ strip ['a'] = ['a'] :=
  ⟨by decide, emitted_lines_already_stripped [[' ', 'a']] ['a'] (by decide)⟩

/-- C10: the emitted line is obtained from the input line purely by
deleting characters — it is a sublist of the input line, in particular no
longer than it. -/
theorem cleanLine_only_deletes (l : List Char) :
    (cleanLine l).Sublist l ∧ (cleanLine l).length ≤ l.length :=
  have h : (cleanLine l).Sublist l := (strip_sublist (sub l)).trans (sub_sublist l)
  ⟨h, h.length_le⟩

end Delog
